import Mathlib

/-!
Verification of the quantum-volume notebooks of this repository.

The repository's QCVV notebook (`Session 3.ipynb`) builds a quantum-volume
experiment: it fixes `qubit_list` and `numTrials`, runs each trial's circuit
on an ideal statevector simulator and on a noisy simulator (two loops that
append one result per trial), and feeds both result lists to the library's
heavy-output analysis (`QVFitter.add_statevectors` / `add_data` /
`qv_success`).  The analysis itself lives in the external library, not in the
repository's files, so it is modelled here from the spec's own description:
median of the ideal probabilities, strict-inequality heavy set, heavy-output
frequency over observed counts, and the `> 0.975` certification threshold.
The Optimization notebook (`Session 2.ipynb`) contains `construct_schedule`,
which is embedded directly.  Probabilities are represented as rationals.
-/

set_option linter.unusedVariables false

namespace QCE20

/-! ### Definitions taken directly from the notebook source -/

/-- `qubit_list = [list(range(width)) for width in range(2, 6)]`
(QCVV/Session 3, cell setting up the experiment design). -/
def qubit_list : List (List ℕ) := (List.range' 2 4).map List.range

/-- `numTrials = 100` from the same cell. -/
def numTrials : ℕ := 100

/-- The notebook's per-trial result loops
(`results = []; for trial in range(numTrials): results.append(run(circs[trial]))`),
one for `ideal_results` over `qv_circs_nomeas` and one for `exp_results` over
`qv_circs`; `runOne` stands for the (opaque) simulator call. -/
def runTrials {α β : Type} (runOne : α → β) (circs : ℕ → α) (n : ℕ) : List β :=
  (List.range n).foldl (fun acc trial => acc ++ [runOne (circs trial)]) []

/-- `construct_schedule(T, N)` from Optimization/Session 2:
`delta_t = T/N`; for `i in range(N+1)`, `t = i * delta_t`,
`gammas += [2 * delta_t * t/T]`, `betas += [-2 * delta_t * (1 - t/T)]`. -/
def construct_schedule (T : ℚ) (N : ℕ) : List ℚ × List ℚ :=
  let delta_t : ℚ := T / (N : ℚ)
  ((List.range (N + 1)).map fun i : ℕ => 2 * delta_t * ((i : ℚ) * delta_t) / T,
   (List.range (N + 1)).map fun i : ℕ => -2 * delta_t * (1 - ((i : ℚ) * delta_t) / T))

/-! ### The heavy-output analysis, modelled from the spec -/

/-- Insert a rational into an already ascending list, keeping it ascending. -/
def insertSorted (x : ℚ) : List ℚ → List ℚ
  | [] => [x]
  | y :: ys => if x ≤ y then x :: y :: ys else y :: insertSorted x ys

/-- Sort a list of rationals into ascending order (insertion sort). -/
def sortAsc (l : List ℚ) : List ℚ := l.foldr insertSorted []

/-- Modelled from the spec: "Compute median m of the values of P" — the
standard median of a finite list of values (sort ascending; middle element
for odd length, mean of the two middle elements for even length).  The
library call computing it is not part of the repository's files. -/
def medianSorted (l : List ℚ) : ℚ :=
  let s := sortAsc l
  if l.length % 2 = 1 then s.getD (l.length / 2) 0
  else (s.getD (l.length / 2 - 1) 0 + s.getD (l.length / 2) 0) / 2

/-- The list of ideal probabilities of the `n` bitstrings. -/
def probValues (n : ℕ) (P : Fin n → ℚ) : List ℚ := (List.finRange n).map P

/-- The median of the ideal distribution's probability values. -/
def medianProb (n : ℕ) (P : Fin n → ℚ) : ℚ := medianSorted (probValues n P)

/-- Modelled from the spec: "Heavy set H = { bitstring b : P[b] > m }" with
strict inequality against the median. -/
def heavySet (n : ℕ) (P : Fin n → ℚ) : Finset (Fin n) :=
  Finset.univ.filter fun b => medianProb n P < P b

/-- Shot total `S = sum(C)` of an observed-count mapping. -/
def shotTotal (n : ℕ) (C : Fin n → ℕ) : ℕ := ∑ b, C b

/-- Modelled from the spec: "Per-trial heavy frequency = sum(C[b] for b in H) / S". -/
def heavyFreq (n : ℕ) (P : Fin n → ℚ) (C : Fin n → ℕ) : ℚ :=
  (∑ b ∈ heavySet n P, (C b : ℚ)) / (shotTotal n C : ℚ)

/-- The domain errors the spec asks for on degenerate input. -/
inductive DomainError
  | emptyDistribution
  | zeroShots
deriving DecidableEq, Repr

/-- Modelled from the spec: the per-trial analysis; "Degenerate inputs (zero
shots, empty distribution) ... should raise a domain error rather than
silently producing a degenerate confidence value." -/
def trialHeavyFreq (n : ℕ) (P : Fin n → ℚ) (C : Fin n → ℕ) : Except DomainError ℚ :=
  if n = 0 then Except.error DomainError.emptyDistribution
  else if shotTotal n C = 0 then Except.error DomainError.zeroShots
  else Except.ok (heavyFreq n P C)

/-- Modelled from the spec: "width is certified only if confidence > 0.975";
`39/40 = 0.975`. -/
def qv_success_certified (confidence : ℚ) : Bool := decide ((39 : ℚ) / 40 < confidence)

/-- Modelled from the spec: `qv_fitter.qv_success()` returns, per width, a
(success flag, confidence) pair, the flag set by the pass policy. -/
def qv_success (confidences : List ℚ) : List (Bool × ℚ) :=
  confidences.map fun c => (qv_success_certified c, c)

/-! ### Helper lemmas -/

lemma length_insertSorted (x : ℚ) (l : List ℚ) :
    (insertSorted x l).length = l.length + 1 := by
  induction l with
  | nil => rfl
  | cons y ys ih => by_cases hxy : x ≤ y <;> simp [insertSorted, hxy, ih]

lemma length_sortAsc (l : List ℚ) : (sortAsc l).length = l.length := by
  induction l with
  | nil => rfl
  | cons x xs ih =>
    show (insertSorted x (sortAsc xs)).length = xs.length + 1
    rw [length_insertSorted, ih]

lemma mem_insertSorted {z x : ℚ} {l : List ℚ} (h : z ∈ insertSorted x l) :
    z = x ∨ z ∈ l := by
  induction l with
  | nil => simpa [insertSorted] using h
  | cons y ys ih =>
    by_cases hxy : x ≤ y
    · simpa [insertSorted, hxy] using h
    · simp only [insertSorted, if_neg hxy, List.mem_cons] at h
      rcases h with h | h
      · exact Or.inr (by simp [h])
      · rcases ih h with h1 | h1
        · exact Or.inl h1
        · exact Or.inr (by simp [h1])

lemma mem_sortAsc {z : ℚ} {l : List ℚ} (h : z ∈ sortAsc l) : z ∈ l := by
  induction l with
  | nil => simp [sortAsc] at h
  | cons x xs ih =>
    rcases mem_insertSorted (show z ∈ insertSorted x (sortAsc xs) from h) with h1 | h1
    · simp [h1]
    · simp [ih h1]

lemma medianSorted_const {l : List ℚ} {c : ℚ} (hne : l ≠ [])
    (hall : ∀ z ∈ l, z = c) : medianSorted l = c := by
  have hpos : 0 < l.length := List.length_pos.mpr hne
  have hget : ∀ i, i < l.length → (sortAsc l).getD i 0 = c := by
    intro i hi
    have hi' : i < (sortAsc l).length := by rw [length_sortAsc]; exact hi
    rw [List.getD_eq_getElem _ _ hi']
    exact hall _ (mem_sortAsc (List.getElem_mem hi'))
  unfold medianSorted
  by_cases hpar : l.length % 2 = 1
  · rw [if_pos hpar]
    exact hget _ (Nat.div_lt_self hpos (by norm_num))
  · rw [if_neg hpar]
    rw [hget _ (Nat.div_lt_self hpos (by norm_num)),
      hget _ (lt_of_le_of_lt (Nat.sub_le _ _) (Nat.div_lt_self hpos (by norm_num)))]
    ring

lemma foldl_append_eq_map {α β : Type} (g : α → β) (l : List α) (a : List β) :
    l.foldl (fun acc x => acc ++ [g x]) a = a ++ l.map g := by
  induction l generalizing a with
  | nil => simp
  | cons x xs ih => simp [ih]

lemma runTrials_eq_map {α β : Type} (runOne : α → β) (circs : ℕ → α) (n : ℕ) :
    runTrials runOne circs n = (List.range n).map fun t => runOne (circs t) := by
  unfold runTrials
  rw [foldl_append_eq_map]
  simp

/-! ### Claim theorems -/

/-- C1: for a trial's ideal distribution `P` over the `2^w` bitstrings, the
heavy set computed by the analysis is exactly the set of bitstrings whose
ideal probability is strictly greater than the median of the values of `P`;
a bitstring whose probability ties the median is excluded. -/
theorem heavySet_strict_median (w : ℕ) (P : Fin (2 ^ w) → ℚ) (b : Fin (2 ^ w)) :
    (b ∈ heavySet (2 ^ w) P ↔ medianProb (2 ^ w) P < P b) ∧
    (P b = medianProb (2 ^ w) P → b ∉ heavySet (2 ^ w) P) := by
  constructor
  · simp [heavySet]
  · intro hEq
    simp [heavySet, hEq]

/-- C3: an entry of `qv_success` carries `success = true` exactly when its
confidence is strictly greater than `0.975 = 39/40`; a confidence exactly at
the threshold does not certify. -/
theorem qv_success_threshold (cs : List ℚ) (i : ℕ) (c : ℚ) (h : cs[i]? = some c) :
    ∃ p, (qv_success cs)[i]? = some p ∧ p.2 = c ∧
      (p.1 = true ↔ (39 : ℚ) / 40 < c) ∧ (c = (39 : ℚ) / 40 → p.1 = false) := by
  refine ⟨(qv_success_certified c, c), ?_, rfl, ?_, ?_⟩
  · simp [qv_success, h]
  · simp [qv_success_certified]
  · intro hc
    simp [qv_success_certified, hc]

/-- Witness for C3 at the concrete list `[39/40, 1]`: the entry at index 1 has
confidence `1 > 39/40` and is certified. -/
theorem qv_success_threshold_witness :
    ∃ p, (qv_success [(39 : ℚ) / 40, 1])[1]? = some p ∧ p.2 = 1 ∧
      (p.1 = true ↔ (39 : ℚ) / 40 < 1) ∧ ((1 : ℚ) = (39 : ℚ) / 40 → p.1 = false) :=
  qv_success_threshold [(39 : ℚ) / 40, 1] 1 1 (by rfl)

/-- C9: `qubit_list` is exactly `[range 2, range 3, range 4, range 5]`, so it
has four entries, the `k`-th of length `k + 2`, every width between 2 and 5. -/
theorem qubit_list_widths :
    qubit_list = [List.range 2, List.range 3, List.range 4, List.range 5] ∧
    qubit_list.map List.length = [2, 3, 4, 5] := by
  constructor <;> rfl

/-- C2: with a positive shot total, the per-trial analysis returns exactly
the heavy-count mass divided by the shot total. -/
theorem trialHeavyFreq_eq (n : ℕ) (P : Fin n → ℚ) (C : Fin n → ℕ)
    (hS : 0 < shotTotal n C) :
    trialHeavyFreq n P C =
      Except.ok ((∑ b ∈ heavySet n P, (C b : ℚ)) / (shotTotal n C : ℚ)) := by
  have hn : n ≠ 0 := by
    rintro rfl
    revert hS
    simp [shotTotal]
  simp [trialHeavyFreq, hn, hS.ne', heavyFreq]

/-- Witness for C2: two bitstrings with ideal probabilities `3/4, 1/4` and one
shot on each; the analysis returns the heavy mass over the shot total. -/
theorem trialHeavyFreq_eq_witness :
    trialHeavyFreq 2 (fun b => if b = 0 then (3 : ℚ) / 4 else 1 / 4) (fun _ => 1) =
      Except.ok ((∑ b ∈ heavySet 2 (fun b => if b = 0 then (3 : ℚ) / 4 else 1 / 4),
        ((1 : ℕ) : ℚ)) / (shotTotal 2 (fun _ => 1) : ℚ)) :=
  trialHeavyFreq_eq 2 (fun b => if b = 0 then (3 : ℚ) / 4 else 1 / 4) (fun _ => 1)
    (by decide)

/-- C4: for a uniform ideal distribution the heavy set is empty, so for every
observed counts with positive shot total the analysis returns frequency 0. -/
theorem uniform_heavySet_empty (n : ℕ) (c : ℚ) (hn : 0 < n) :
    heavySet n (fun _ => c) = ∅ ∧
    ∀ C : Fin n → ℕ, 0 < shotTotal n C →
      trialHeavyFreq n (fun _ => c) C = Except.ok 0 := by
  have hmed : medianProb n (fun _ => c) = c := by
    apply medianSorted_const
    · apply List.length_pos.mp
      simpa [probValues] using hn
    · intro z hz
      obtain ⟨b, _, hbz⟩ := List.mem_map.mp hz
      exact hbz.symm
  have hempty : heavySet n (fun _ => c) = ∅ := by
    ext b
    simp [heavySet, hmed]
  refine ⟨hempty, ?_⟩
  intro C hS
  simp [trialHeavyFreq, hn.ne', hS.ne', heavyFreq, hempty]

/-- Witness for C4: the uniform distribution on two bitstrings has an empty
heavy set and every positive-shot count mapping yields frequency 0. -/
theorem uniform_heavySet_empty_witness :
    heavySet 2 (fun _ => (1 : ℚ) / 2) = ∅ ∧
    ∀ C : Fin 2 → ℕ, 0 < shotTotal 2 C →
      trialHeavyFreq 2 (fun _ => (1 : ℚ) / 2) C = Except.ok 0 :=
  uniform_heavySet_empty 2 (1 / 2) (by decide)

/-- C5: with a positive shot total, the heavy-output frequency equals 1 minus
the frequency of the complementary (non-heavy) set of bitstrings. -/
theorem heavyFreq_complement (n : ℕ) (P : Fin n → ℚ) (C : Fin n → ℕ)
    (hS : 0 < shotTotal n C) :
    heavyFreq n P C =
      1 - (∑ b ∈ (heavySet n P)ᶜ, (C b : ℚ)) / (shotTotal n C : ℚ) := by
  have hsplit : (∑ b ∈ heavySet n P, (C b : ℚ)) + (∑ b ∈ (heavySet n P)ᶜ, (C b : ℚ))
      = (shotTotal n C : ℚ) := by
    rw [Finset.sum_add_sum_compl]
    rw [shotTotal, Nat.cast_sum]
  have hS0 : ((shotTotal n C : ℕ) : ℚ) ≠ 0 := by
    exact_mod_cast hS.ne'
  unfold heavyFreq
  field_simp
  linarith

/-- Witness for C5 on the `3/4, 1/4` distribution with one shot on each
bitstring. -/
theorem heavyFreq_complement_witness :
    heavyFreq 2 (fun b => if b = 0 then (3 : ℚ) / 4 else 1 / 4) (fun _ => 1) =
      1 - (∑ b ∈ (heavySet 2 (fun b => if b = 0 then (3 : ℚ) / 4 else 1 / 4))ᶜ,
        ((1 : ℕ) : ℚ)) / (shotTotal 2 (fun _ => 1) : ℚ) :=
  heavyFreq_complement 2 (fun b => if b = 0 then (3 : ℚ) / 4 else 1 / 4) (fun _ => 1)
    (by decide)

/-- C7: on degenerate input — an empty distribution or a zero shot total —
the per-trial analysis returns a domain error, never a frequency. -/
theorem degenerate_domain_error (n : ℕ) (P : Fin n → ℚ) (C : Fin n → ℕ)
    (h : n = 0 ∨ shotTotal n C = 0) :
    ∃ e, trialHeavyFreq n P C = Except.error e := by
  by_cases hn : n = 0
  · exact ⟨DomainError.emptyDistribution, by simp [trialHeavyFreq, hn]⟩
  · have hS : shotTotal n C = 0 := h.resolve_left hn
    exact ⟨DomainError.zeroShots, by simp [trialHeavyFreq, hn, hS]⟩

/-- Witness for C7: one bitstring, zero shots. -/
theorem degenerate_domain_error_witness :
    ∃ e, trialHeavyFreq 1 (fun _ => 1) (fun _ => 0) = Except.error e :=
  degenerate_domain_error 1 (fun _ => 1) (fun _ => 0) (Or.inr (by decide))

/-- C8: the two per-trial result loops pair by trial index: for every
`i < n`, the `i`-th ideal result is the ideal run of the `i`-th
measurement-free circuit and the `i`-th experimental result is the noisy run
of the `i`-th measured circuit — the same trial on both sides. -/
theorem trial_pairing {α β γ δ : Type} (idealRun : α → γ) (noisyRun : β → δ)
    (circs_nomeas : ℕ → α) (circs : ℕ → β) (n i : ℕ) (h : i < n) :
    (runTrials idealRun circs_nomeas n)[i]? = some (idealRun (circs_nomeas i)) ∧
    (runTrials noisyRun circs n)[i]? = some (noisyRun (circs i)) := by
  constructor <;>
  · rw [runTrials_eq_map, List.getElem?_map, List.getElem?_range h]
    rfl

/-- Witness for C8 with three trials and concrete run functions: index 1 of
each result list is the run of circuit 1. -/
theorem trial_pairing_witness :
    (runTrials (fun k : ℕ => k + 1) (fun k : ℕ => 10 * k) 3)[1]? = some 11 ∧
    (runTrials (fun k : ℕ => 2 * k) (fun k : ℕ => k) 3)[1]? = some 2 :=
  trial_pairing (fun k : ℕ => k + 1) (fun k : ℕ => 2 * k) (fun k : ℕ => 10 * k)
    (fun k : ℕ => k) 3 1 (by decide)

lemma construct_schedule_fst_getD (T : ℚ) (N j : ℕ) (hj : j < N + 1) :
    (construct_schedule T N).1.getD j 0
      = 2 * (T / (N : ℚ)) * ((j : ℚ) * (T / (N : ℚ))) / T := by
  have hlen : j < ((List.range (N + 1)).map fun i : ℕ =>
      2 * (T / (N : ℚ)) * ((i : ℚ) * (T / (N : ℚ))) / T).length := by
    rw [List.length_map, List.length_range]
    exact hj
  simp only [construct_schedule]
  rw [List.getD_eq_getElem _ _ hlen, List.getElem_map, List.getElem_range]

lemma construct_schedule_snd_getD (T : ℚ) (N j : ℕ) (hj : j < N + 1) :
    (construct_schedule T N).2.getD j 0
      = -2 * (T / (N : ℚ)) * (1 - ((j : ℚ) * (T / (N : ℚ))) / T) := by
  have hlen : j < ((List.range (N + 1)).map fun i : ℕ =>
      -2 * (T / (N : ℚ)) * (1 - ((i : ℚ) * (T / (N : ℚ))) / T)).length := by
    rw [List.length_map, List.length_range]
    exact hj
  simp only [construct_schedule]
  rw [List.getD_eq_getElem _ _ hlen, List.getElem_map, List.getElem_range]

/-- C10: for `T > 0` and `N ≥ 1`, `construct_schedule T N` returns two lists
of length `N + 1` with `gammas[i] = 2 T i / N²` and
`betas[i] = -2 (T/N) (1 - i/N)`; hence `gammas[0] = 0`, `betas[N] = 0` and
`gammas[i] - betas[i] = 2 T / N` for every `i ≤ N`. -/
theorem construct_schedule_closed_form (T : ℚ) (N i : ℕ)
    (hT : 0 < T) (hN : 1 ≤ N) (hi : i ≤ N) :
    (construct_schedule T N).1.length = N + 1 ∧
    (construct_schedule T N).2.length = N + 1 ∧
    (construct_schedule T N).1.getD i 0 = 2 * T * (i : ℚ) / (N : ℚ) ^ 2 ∧
    (construct_schedule T N).2.getD i 0
      = -(2 * (T / (N : ℚ)) * (1 - (i : ℚ) / (N : ℚ))) ∧
    (construct_schedule T N).1.getD 0 0 = 0 ∧
    (construct_schedule T N).2.getD N 0 = 0 ∧
    (construct_schedule T N).1.getD i 0 - (construct_schedule T N).2.getD i 0
      = 2 * T / (N : ℚ) := by
  have hT0 : T ≠ 0 := hT.ne'
  have hNnat : N ≠ 0 := Nat.one_le_iff_ne_zero.mp hN
  have hN0 : (N : ℚ) ≠ 0 := Nat.cast_ne_zero.mpr hNnat
  have hilt : i < N + 1 := Nat.lt_succ_of_le hi
  have hg := construct_schedule_fst_getD T N i hilt
  have hb := construct_schedule_snd_getD T N i hilt
  have hg' : (construct_schedule T N).1.getD i 0 = 2 * T * (i : ℚ) / (N : ℚ) ^ 2 := by
    rw [hg]
    field_simp
    ring
  have hb' : (construct_schedule T N).2.getD i 0
      = -(2 * (T / (N : ℚ)) * (1 - (i : ℚ) / (N : ℚ))) := by
    rw [hb]
    field_simp
    ring
  refine ⟨?_, ?_, hg', hb', ?_, ?_, ?_⟩
  · simp only [construct_schedule]
    rw [List.length_map, List.length_range]
  · simp only [construct_schedule]
    rw [List.length_map, List.length_range]
  · rw [construct_schedule_fst_getD T N 0 (Nat.succ_pos N)]
    simp
  · rw [construct_schedule_snd_getD T N N (Nat.lt_succ_self N)]
    field_simp
  · rw [hg', hb']
    field_simp
    ring

/-- Witness for C10 at the notebook's own parameters `T = 5`, `N = 10` (and
`i = 3`): the gamma list has length 11. -/
theorem construct_schedule_closed_form_witness :
    (construct_schedule 5 10).1.length = 10 + 1 :=
  (construct_schedule_closed_form 5 10 3 (by norm_num) (by norm_num) (by norm_num)).1

end QCE20
